import Mathlib

/-!
Verification development for the hashdb block-hash database.

The definitions below are shallow embeddings of the C++ sources:
* `lmdb_hash_manager_t` (prefix/suffix hash store): `hashPair`,
  `lmdbHashInsert`, `lmdbHashFind`, with the value codec
  `encodeData` / `decodeData`.
* `lmdb_hash_manager_t` (hash-data variant): `hdInsertOne` / `hdInsert`
  over a (key, value) multistore plus a bloom filter and change counters.
* `commands_t::intersect` / `commands_t::add_multiple`: streaming
  set-algebra operators over ordered element lists.
* `import_json_t::read_source_data` / `read_block_hash_data`: JSON record
  ingestion, modelled over an abstract parsed-document type.

Byte strings are `List Nat` (each entry one byte), sets of byte strings are
strictly sorted lists in `std::string` order, and machine counters are `Nat`
(the C++ counters are uint32/uint64 and no claim exercises overflow).
-/

set_option maxHeartbeats 1000000
set_option maxRecDepth 8192

/-! ## Byte strings and `std::set<std::string>` order

`strLt` is `std::string operator<`: lexicographic byte comparison with the
shorter string first on ties. `insertStr` is `std::set<std::string>::insert`
on the strictly sorted list representation of the set. -/

def strLt : List Nat → List Nat → Bool
  | [], [] => false
  | [], _ :: _ => true
  | _ :: _, [] => false
  | a :: as, b :: bs =>
    if a < b then true
    else if b < a then false
    else strLt as bs

def StrSorted (l : List (List Nat)) : Prop :=
  l.Pairwise (fun a b => strLt a b = true)

def insertStr (l : List (List Nat)) (s : List Nat) : List (List Nat) :=
  match l with
  | [] => [s]
  | x :: xs =>
    if strLt s x then s :: x :: xs
    else if strLt x s then x :: insertStr xs s
    else x :: xs

theorem strLt_irrefl (a : List Nat) : strLt a a = false := by
  induction a with
  | nil => rfl
  | cons x xs ih => simp [strLt, ih]

theorem strLt_trans :
    ∀ {a b c : List Nat}, strLt a b = true → strLt b c = true → strLt a c = true := by
  intro a
  induction a with
  | nil =>
    intro b c hab hbc
    cases b with
    | nil => simp [strLt] at hab
    | cons y ys =>
      cases c with
      | nil => simp [strLt] at hbc
      | cons z zs => simp [strLt]
  | cons x xs ih =>
    intro b c hab hbc
    cases b with
    | nil => simp [strLt] at hab
    | cons y ys =>
      cases c with
      | nil => simp [strLt] at hbc
      | cons z zs =>
        simp only [strLt] at hab hbc ⊢
        by_cases hxy : x < y
        · by_cases hyz : y < z
          · rw [if_pos (show x < z by omega)]
          · rw [if_neg hyz] at hbc
            by_cases hzy : z < y
            · rw [if_pos hzy] at hbc
              exact absurd hbc (by simp)
            · have : y = z := by omega
              rw [if_pos (show x < z by omega)]
        · rw [if_neg hxy] at hab
          by_cases hyx : y < x
          · rw [if_pos hyx] at hab
            exact absurd hab (by simp)
          · have hxy' : x = y := by omega
            rw [if_neg hyx] at hab
            by_cases hyz : y < z
            · rw [if_pos (show x < z by omega)]
            · rw [if_neg hyz] at hbc
              by_cases hzy : z < y
              · rw [if_pos hzy] at hbc
                exact absurd hbc (by simp)
              · rw [if_neg hzy] at hbc
                have hyz' : y = z := by omega
                rw [if_neg (show ¬ x < z by omega), if_neg (show ¬ z < x by omega)]
                exact ih hab hbc

theorem strLt_asymm {a b : List Nat} (h : strLt a b = true) : strLt b a = false := by
  by_contra hc
  have hba : strLt b a = true := by
    cases hba : strLt b a
    · exact absurd hba hc
    · rfl
  have := strLt_trans h hba
  rw [strLt_irrefl] at this
  exact Bool.noConfusion this

theorem eq_of_strLt_false {a b : List Nat}
    (hab : strLt a b = false) (hba : strLt b a = false) : a = b := by
  induction a generalizing b with
  | nil =>
    cases b with
    | nil => rfl
    | cons y ys => simp [strLt] at hab
  | cons x xs ih =>
    cases b with
    | nil => simp [strLt] at hba
    | cons y ys =>
      simp only [strLt] at hab hba
      by_cases hxy : x < y
      · simp [hxy] at hab
      · simp only [if_neg hxy] at hab
        by_cases hyx : y < x
        · simp [hyx] at hba
        · have hxy' : x = y := by omega
          simp only [if_neg hyx] at hba
          subst hxy'
          simp only [lt_irrefl, if_neg (lt_irrefl x)] at hab hba
          rw [ih hab hba]

theorem mem_insertStr {t s : List Nat} {l : List (List Nat)} :
    t ∈ insertStr l s ↔ t = s ∨ t ∈ l := by
  induction l with
  | nil => simp [insertStr]
  | cons x xs ih =>
    simp only [insertStr]
    by_cases h1 : strLt s x = true
    · simp [h1]
    · rw [if_neg h1]
      by_cases h2 : strLt x s = true
      · simp only [if_pos h2, List.mem_cons, ih]
        tauto
      · rw [if_neg h2]
        have hsx : s = x := by
          apply eq_of_strLt_false
          · cases hv : strLt s x
            · rfl
            · exact absurd hv h1
          · cases hv : strLt x s
            · rfl
            · exact absurd hv h2
        subst hsx
        simp only [List.mem_cons]
        tauto

theorem insertStr_sorted {l : List (List Nat)} {s : List Nat}
    (h : StrSorted l) : StrSorted (insertStr l s) := by
  induction l with
  | nil =>
    simp [insertStr, StrSorted]
  | cons x xs ih =>
    simp only [insertStr]
    rw [StrSorted, List.pairwise_cons] at h
    obtain ⟨hx, hxs⟩ := h
    by_cases h1 : strLt s x = true
    · rw [if_pos h1]
      rw [StrSorted, List.pairwise_cons]
      constructor
      · intro t ht
        rcases List.mem_cons.mp ht with rfl | ht'
        · exact h1
        · exact strLt_trans h1 (hx t ht')
      · rw [List.pairwise_cons]
        exact ⟨hx, hxs⟩
    · rw [if_neg h1]
      by_cases h2 : strLt x s = true
      · rw [if_pos h2]
        rw [StrSorted, List.pairwise_cons]
        constructor
        · intro t ht
          rcases mem_insertStr.mp ht with rfl | ht'
          · exact h2
          · exact hx t ht'
        · exact ih hxs
      · rw [if_neg h2]
        rw [StrSorted, List.pairwise_cons]
        exact ⟨hx, hxs⟩

theorem insertStr_of_forall_lt {l : List (List Nat)} {s : List Nat}
    (h : ∀ x ∈ l, strLt x s = true) : insertStr l s = l ++ [s] := by
  induction l with
  | nil => rfl
  | cons x xs ih =>
    have hxs : strLt x s = true := h x (List.mem_cons_self x xs)
    simp only [insertStr, strLt_asymm hxs, Bool.false_eq_true, if_false, if_pos hxs]
    rw [ih (fun y hy => h y (List.mem_cons_of_mem x hy))]
    simp

theorem foldl_insertStr_of_sorted :
    ∀ {l acc : List (List Nat)}, StrSorted (acc ++ l) →
      List.foldl insertStr acc l = acc ++ l := by
  intro l
  induction l with
  | nil => intro acc _; simp
  | cons x xs ih =>
    intro acc h
    have hlt : ∀ a ∈ acc, strLt a x = true := by
      intro a ha
      have := (List.pairwise_append.mp h).2.2 a ha x (List.mem_cons_self x xs)
      exact this
    simp only [List.foldl_cons]
    rw [insertStr_of_forall_lt hlt]
    have h' : StrSorted ((acc ++ [x]) ++ xs) := by
      simpa using h
    rw [ih h']
    simp

theorem foldl_insertStr_sorted :
    ∀ {l acc : List (List Nat)}, StrSorted acc →
      StrSorted (List.foldl insertStr acc l) := by
  intro l
  induction l with
  | nil => intro acc h; simpa using h
  | cons x xs ih =>
    intro acc h
    exact ih (insertStr_sorted h)

/-! ## Variable-length integer and string codec

Modelled from the spec: `lmdb_helper::encode_string` / `decode_string` are
declared in `lmdb_helper.h`, which is not among the sources; the spec
describes the encoding as an unsigned LEB-style varint (7 data bits per
byte, high bit = continuation) followed by the raw bytes, for a
length-prefixed string.  `encodeVarintGo` carries a fuel argument so that
the definition is structurally recursive (the wrapper `encodeVarint`
supplies fuel `n`, which always suffices because the value shrinks by a
factor of 128 each step). -/

def encodeVarintGo : Nat → Nat → List Nat
  | 0, n => [n]
  | fuel + 1, n =>
    if n < 128 then [n]
    else (n % 128 + 128) :: encodeVarintGo fuel (n / 128)

def encodeVarint (n : Nat) : List Nat :=
  encodeVarintGo n n

def decodeVarint : List Nat → Option (Nat × List Nat)
  | [] => none
  | b :: rest =>
    if b < 128 then some (b, rest)
    else (decodeVarint rest).map (fun p => (b % 128 + 128 * p.1, p.2))

theorem decodeVarint_encodeVarintGo :
    ∀ (fuel n : Nat), n ≤ fuel → ∀ (rest : List Nat),
      decodeVarint (encodeVarintGo fuel n ++ rest) = some (n, rest) := by
  intro fuel
  induction fuel with
  | zero =>
    intro n hn rest
    have : n = 0 := Nat.le_zero.mp hn
    subst this
    simp [encodeVarintGo, decodeVarint]
  | succ f ih =>
    intro n hn rest
    by_cases h : n < 128
    · simp [encodeVarintGo, h, decodeVarint]
    · have hn0 : 0 < n := by omega
      have hdiv : n / 128 < n := Nat.div_lt_self hn0 (by norm_num)
      have hfuel : n / 128 ≤ f := by omega
      simp only [encodeVarintGo, if_neg h, List.cons_append, decodeVarint]
      have hge : ¬ (n % 128 + 128 < 128) := by omega
      rw [if_neg hge, ih (n / 128) hfuel rest]
      simp only [Option.map_some']
      have : (n % 128 + 128) % 128 + 128 * (n / 128) = n := by omega
      rw [this]

theorem decodeVarint_encodeVarint (n : Nat) (rest : List Nat) :
    decodeVarint (encodeVarint n ++ rest) = some (n, rest) :=
  decodeVarint_encodeVarintGo n n le_rfl rest

theorem encodeVarintGo_length_pos (fuel n : Nat) :
    0 < (encodeVarintGo fuel n).length := by
  cases fuel with
  | zero => simp [encodeVarintGo]
  | succ f =>
    simp only [encodeVarintGo]
    by_cases h : n < 128 <;> simp [h]

def encodeStr (s : List Nat) : List Nat :=
  encodeVarint s.length ++ s

def decodeStr (bs : List Nat) : Option (List Nat × List Nat) :=
  match decodeVarint bs with
  | none => none
  | some (n, rest) =>
    if n ≤ rest.length then some (rest.take n, rest.drop n) else none

theorem decodeStr_encodeStr (s : List Nat) (rest : List Nat) :
    decodeStr (encodeStr s ++ rest) = some (s, rest) := by
  simp only [encodeStr, List.append_assoc, decodeStr, decodeVarint_encodeVarint]
  rw [if_pos (by simp)]
  simp

theorem encodeStr_length_pos (s : List Nat) : 0 < (encodeStr s).length := by
  simp only [encodeStr, List.length_append]
  have := encodeVarintGo_length_pos s.length s.length
  simp only [encodeVarint]
  omega

/-! ## `lmdb_hash_manager_t::encode_data` / `decode_data`

`encode_data` concatenates the `encode_string` of every suffix in the
`std::set`, in its sorted order.  `decode_data` repeatedly calls
`decode_string` until the buffer is exhausted, inserting each string into a
`std::set`; the C++ asserts when the decode does not consume exactly the
input buffer, which is modelled as `none` (the `decodeStr` overrun case is
exactly the pointer-past-the-end case the assert detects).
`decodeDataGo` carries a fuel argument for structural recursion; the
wrapper supplies the buffer length, which always suffices because
`decode_string` consumes at least one byte per iteration. -/

def encodeData : List (List Nat) → List Nat
  | [] => []
  | s :: rest => encodeStr s ++ encodeData rest

def decodeDataGo : Nat → List Nat → Option (List (List Nat))
  | _, [] => some []
  | 0, _ :: _ => none
  | fuel + 1, b :: tl =>
    (decodeStr (b :: tl)).bind
      (fun p => (decodeDataGo fuel p.2).map (fun l => p.1 :: l))

def decodeDataRaw (bs : List Nat) : Option (List (List Nat)) :=
  decodeDataGo bs.length bs

def decodeData (bs : List Nat) : Option (List (List Nat)) :=
  match decodeDataRaw bs with
  | none => none
  | some raw => some (List.foldl insertStr [] raw)

theorem decodeDataGo_encodeData :
    ∀ (l : List (List Nat)) (fuel : Nat), (encodeData l).length ≤ fuel →
      decodeDataGo fuel (encodeData l) = some l := by
  intro l
  induction l with
  | nil => intro fuel _; cases fuel <;> simp [encodeData, decodeDataGo]
  | cons s rest ih =>
    intro fuel hlen
    have hpos : 0 < (encodeData (s :: rest)).length := by
      simp only [encodeData, List.length_append]
      have := encodeStr_length_pos s
      omega
    obtain ⟨f, rfl⟩ : ∃ f, fuel = f + 1 := by
      cases fuel with
      | zero => omega
      | succ f => exact ⟨f, rfl⟩
    have hne : ∃ b tl, encodeData (s :: rest) = b :: tl := by
      cases henc : encodeData (s :: rest) with
      | nil => rw [henc] at hpos; simp at hpos
      | cons b tl => exact ⟨b, tl, rfl⟩
    obtain ⟨b, tl, hb⟩ := hne
    rw [hb]
    simp only [decodeDataGo]
    have hdec : decodeStr (b :: tl) = some (s, encodeData rest) := by
      rw [← hb]
      exact decodeStr_encodeStr s (encodeData rest)
    rw [hdec]
    have hrest : (encodeData rest).length ≤ f := by
      have h1 : (encodeData (s :: rest)).length =
          (encodeStr s).length + (encodeData rest).length := by
        simp [encodeData]
      have := encodeStr_length_pos s
      omega
    simp only [Option.some_bind]
    rw [ih f hrest]
    simp

theorem decodeDataRaw_encodeData (l : List (List Nat)) :
    decodeDataRaw (encodeData l) = some l :=
  decodeDataGo_encodeData l (encodeData l).length le_rfl

theorem decodeData_encodeData (l : List (List Nat)) :
    decodeData (encodeData l) = some (List.foldl insertStr [] l) := by
  simp [decodeData, decodeDataRaw_encodeData]

theorem decodeData_encodeData_of_sorted {l : List (List Nat)} (h : StrSorted l) :
    decodeData (encodeData l) = some l := by
  rw [decodeData_encodeData]
  rw [foldl_insertStr_of_sorted (by simpa using h)]
  simp

theorem decodeData_sorted {bs : List Nat} {l : List (List Nat)}
    (h : decodeData bs = some l) : StrSorted l := by
  simp only [decodeData] at h
  cases hraw : decodeDataRaw bs with
  | none => rw [hraw] at h; exact Option.noConfusion h
  | some raw =>
    rw [hraw] at h
    have : List.foldl insertStr [] raw = l := by
      simpa using h
    rw [← this]
    exact foldl_insertStr_sorted (by simp [StrSorted])

/-! ## `lmdb_hash_manager_t` (prefix/suffix hash store)

`masks`, `hashPair`, `lmdbHashInsert` and `lmdbHashFind` follow
`lmdb_hash_manager.hpp`: the key is the hash's first
`(prefix_bits + 7) / 8` bytes with the last byte masked to the residual
bit count, the value is the encoded `std::set` of suffixes.  The LMDB
environment is modelled as an association list from key to value
(`assocGet` / `assocPut` are `MDB_SET_KEY` lookup and `mdb_put`
overwrite).  The C++ `assert(0)` paths (empty key, decode mismatch) are
modelled as `none`. -/

def masks : List Nat := [0xff, 0x80, 0xc0, 0xe0, 0xf0, 0xf8, 0xfc, 0xfe]

structure HashCfg where
  prefix_bits : Nat
  suffix_bytes : Nat

def prefixBytesOf (cfg : HashCfg) : Nat :=
  (cfg.prefix_bits + 7) / 8

def prefixMaskOf (cfg : HashCfg) : Nat :=
  masks.getD (cfg.prefix_bits % 8) 0

def hashPair (cfg : HashCfg) (binary_hash : List Nat) : List Nat × List Nat :=
  let hashSize := binary_hash.length
  let pb := prefixBytesOf cfg
  let prefixSize := if hashSize > pb then pb else hashSize
  let pre0 := binary_hash.take prefixSize
  -- maybe zero out some bits at the end of the prefix string
  let pre := if prefixSize = pb then
      pre0.set (pb - 1) ((pre0.getD (pb - 1) 0) &&& prefixMaskOf cfg)
    else pre0
  let suffixStart := max (hashSize - cfg.suffix_bytes) prefixSize
  let suf := if suffixStart < hashSize then
      (binary_hash.drop suffixStart).take cfg.suffix_bytes
    else []
  (pre, suf)

structure LmdbChanges where
  hash_inserted : Nat
  hash_already_present : Nat
deriving DecidableEq

abbrev HStore := List (List Nat × List Nat)

def assocGet : HStore → List Nat → Option (List Nat)
  | [], _ => none
  | (k, v) :: rest, q => if k = q then some v else assocGet rest q

def assocPut : HStore → List Nat → List Nat → HStore
  | [], q, v => [(q, v)]
  | (k, w) :: rest, q, v =>
    if k = q then (k, v) :: rest else (k, w) :: assocPut rest q v

def lmdbHashInsert (cfg : HashCfg) (st : HStore) (binary_hash : List Nat)
    (changes : LmdbChanges) : Option (HStore × LmdbChanges) :=
  if binary_hash.length = 0 then none  -- "empty key" assert
  else
    let p := hashPair cfg binary_hash
    match assocGet st p.1 with
    | none =>
      -- prefix and suffix are new: store the singleton suffix set
      some (assocPut st p.1 (encodeData [p.2]),
            { changes with hash_inserted := changes.hash_inserted + 1 })
    | some enc =>
      match decodeData enc with
      | none => none  -- decode_data assert: buffer not exactly consumed
      | some strings =>
        if p.2 ∈ strings then
          some (st, { changes with
                      hash_already_present := changes.hash_already_present + 1 })
        else
          some (assocPut st p.1 (encodeData (insertStr strings p.2)),
                { changes with hash_inserted := changes.hash_inserted + 1 })

def lmdbHashFind (cfg : HashCfg) (st : HStore) (binary_hash : List Nat) :
    Option Bool :=
  if binary_hash.length = 0 then none  -- "empty key" assert
  else
    let p := hashPair cfg binary_hash
    match assocGet st p.1 with
    | none => some false
    | some enc =>
      match decodeData enc with
      | none => none
      | some strings => some (decide (p.2 ∈ strings))

def lmdbHashInsertAll (cfg : HashCfg) :
    List (List Nat) → HStore → LmdbChanges → Option (HStore × LmdbChanges)
  | [], st, changes => some (st, changes)
  | h :: rest, st, changes =>
    match lmdbHashInsert cfg st h changes with
    | none => none
    | some (st', changes') => lmdbHashInsertAll cfg rest st' changes'

theorem assocGet_assocPut_same (st : HStore) (k v : List Nat) :
    assocGet (assocPut st k v) k = some v := by
  induction st with
  | nil => simp [assocPut, assocGet]
  | cons kv rest ih =>
    obtain ⟨k', w⟩ := kv
    simp only [assocPut]
    by_cases h : k' = k
    · simp [assocGet, h]
    · simp [assocGet, h, ih]

theorem assocGet_assocPut_other (st : HStore) (k v q : List Nat) (h : k ≠ q) :
    assocGet (assocPut st k v) q = assocGet st q := by
  induction st with
  | nil => simp [assocPut, assocGet, h]
  | cons kv rest ih =>
    obtain ⟨k', w⟩ := kv
    simp only [assocPut]
    by_cases h' : k' = k
    · subst h'
      simp [assocGet, h]
    · simp only [if_neg h', assocGet]
      by_cases h'' : k' = q
      · simp [h'']
      · simp [h'', ih]

/-- Well-formedness of a hash store: every stored value is an
`encodeData` image, so `decode_data` never hits its assert. -/
abbrev WFHStore (st : HStore) : Prop :=
  ∀ kv ∈ st, ∃ l, kv.2 = encodeData l

theorem wfHStore_nil : WFHStore [] := by
  intro kv h
  exact absurd h (List.not_mem_nil kv)

theorem wfHStore_assocPut {st : HStore} (h : WFHStore st) (k : List Nat)
    (l : List (List Nat)) : WFHStore (assocPut st k (encodeData l)) := by
  induction st with
  | nil =>
    intro kv hkv
    simp only [assocPut, List.mem_singleton] at hkv
    exact ⟨l, by rw [hkv]⟩
  | cons kv0 rest ih =>
    obtain ⟨k', w⟩ := kv0
    intro kv hkv
    simp only [assocPut] at hkv
    by_cases hk : k' = k
    · rw [if_pos hk] at hkv
      rcases List.mem_cons.mp hkv with rfl | hmem
      · exact ⟨l, rfl⟩
      · exact h kv (List.mem_cons_of_mem _ hmem)
    · rw [if_neg hk] at hkv
      rcases List.mem_cons.mp hkv with rfl | hmem
      · exact h (k', w) (List.mem_cons_self _ _)
      · exact ih (fun kv' h' => h kv' (List.mem_cons_of_mem _ h')) kv hmem

theorem wfHStore_of_assocGet {st : HStore} (h : WFHStore st) {k enc : List Nat}
    (hget : assocGet st k = some enc) : ∃ l, enc = encodeData l := by
  induction st with
  | nil => simp [assocGet] at hget
  | cons kv rest ih =>
    obtain ⟨k', w⟩ := kv
    simp only [assocGet] at hget
    by_cases hk : k' = k
    · rw [if_pos hk] at hget
      obtain ⟨l, hl⟩ := h (k', w) (List.mem_cons_self _ _)
      exact ⟨l, by simpa [← hl] using hget.symm⟩
    · rw [if_neg hk] at hget
      exact ih (fun kv' h' => h kv' (List.mem_cons_of_mem _ h')) hget


/-- Inversion of a successful `lmdbHashInsert`: the three ways the store
can change. -/
theorem lmdbHashInsert_inv (cfg : HashCfg) {st st' : HStore} {h : List Nat}
    {ch ch' : LmdbChanges}
    (hins : lmdbHashInsert cfg st h ch = some (st', ch')) :
    h.length ≠ 0 ∧
    ((assocGet st (hashPair cfg h).1 = none ∧
        st' = assocPut st (hashPair cfg h).1 (encodeData [(hashPair cfg h).2])) ∨
     (∃ enc strings, assocGet st (hashPair cfg h).1 = some enc ∧
        decodeData enc = some strings ∧
        (((hashPair cfg h).2 ∈ strings ∧ st' = st) ∨
         ((hashPair cfg h).2 ∉ strings ∧
           st' = assocPut st (hashPair cfg h).1
                   (encodeData (insertStr strings (hashPair cfg h).2)))))) := by
  by_cases hlen : h.length = 0
  · exfalso
    simp only [lmdbHashInsert, if_pos hlen] at hins
    exact Option.noConfusion hins
  refine ⟨hlen, ?_⟩
  cases hget : assocGet st (hashPair cfg h).1 with
  | none =>
    simp only [lmdbHashInsert, if_neg hlen, hget, Option.some.injEq,
      Prod.mk.injEq] at hins
    exact Or.inl ⟨rfl, hins.1.symm⟩
  | some enc =>
    cases hdec : decodeData enc with
    | none =>
      exfalso
      simp only [lmdbHashInsert, if_neg hlen, hget, hdec] at hins
      exact Option.noConfusion hins
    | some strings =>
      refine Or.inr ⟨enc, strings, rfl, hdec, ?_⟩
      by_cases hmem : (hashPair cfg h).2 ∈ strings
      · simp only [lmdbHashInsert, if_neg hlen, hget, hdec, if_pos hmem,
          Option.some.injEq, Prod.mk.injEq] at hins
        exact Or.inl ⟨hmem, hins.1.symm⟩
      · simp only [lmdbHashInsert, if_neg hlen, hget, hdec, if_neg hmem,
          Option.some.injEq, Prod.mk.injEq] at hins
        exact Or.inr ⟨hmem, hins.1.symm⟩

/-- A successful insert is immediately findable. -/
theorem lmdbHashFind_after_insert (cfg : HashCfg) {st st' : HStore}
    {h : List Nat} {ch ch' : LmdbChanges}
    (hins : lmdbHashInsert cfg st h ch = some (st', ch')) :
    lmdbHashFind cfg st' h = some true := by
  obtain ⟨hlen, hcases⟩ := lmdbHashInsert_inv cfg hins
  rcases hcases with ⟨hget, hst⟩ | ⟨enc, strings, hget, hdec, hbr⟩
  · subst hst
    simp only [lmdbHashFind, if_neg hlen, assocGet_assocPut_same,
      decodeData_encodeData_of_sorted (show StrSorted [(hashPair cfg h).2] by
        simp [StrSorted])]
    simp
  · rcases hbr with ⟨hmem, hst⟩ | ⟨hmem, hst⟩
    · subst hst
      simp only [lmdbHashFind, if_neg hlen, hget, hdec]
      simp [hmem]
    · subst hst
      have hsorted : StrSorted strings := decodeData_sorted hdec
      simp only [lmdbHashFind, if_neg hlen, assocGet_assocPut_same,
        decodeData_encodeData_of_sorted (insertStr_sorted hsorted)]
      simp [mem_insertStr]

/-- Inserting any hash preserves a positive find of any other hash. -/
theorem lmdbHashFind_mono (cfg : HashCfg) {st st' : HStore}
    {h H : List Nat} {ch ch' : LmdbChanges}
    (hins : lmdbHashInsert cfg st h ch = some (st', ch'))
    (hfind : lmdbHashFind cfg st H = some true) :
    lmdbHashFind cfg st' H = some true := by
  obtain ⟨hlen, hcases⟩ := lmdbHashInsert_inv cfg hins
  by_cases hHlen : H.length = 0
  · exfalso
    simp only [lmdbHashFind, if_pos hHlen] at hfind
    exact Option.noConfusion hfind
  rcases hcases with ⟨hget, hst⟩ | ⟨enc, strings, hget, hdec, hbr⟩
  · subst hst
    by_cases hkey : (hashPair cfg h).1 = (hashPair cfg H).1
    · -- find on st at this key was `none`, so `hfind` would be `false`
      exfalso
      rw [hkey] at hget
      simp only [lmdbHashFind, if_neg hHlen, hget] at hfind
      exact Bool.noConfusion (Option.some.inj hfind)
    · simp only [lmdbHashFind, if_neg hHlen,
        assocGet_assocPut_other _ _ _ _ hkey] at hfind ⊢
      exact hfind
  · rcases hbr with ⟨hmem, hst⟩ | ⟨hmem, hst⟩
    · subst hst
      exact hfind
    · subst hst
      have hsorted : StrSorted strings := decodeData_sorted hdec
      by_cases hkey : (hashPair cfg h).1 = (hashPair cfg H).1
      · rw [hkey] at hget
        simp only [lmdbHashFind, if_neg hHlen, hget, hdec,
          Option.some.injEq, decide_eq_true_eq] at hfind
        simp only [lmdbHashFind, if_neg hHlen, hkey, assocGet_assocPut_same,
          decodeData_encodeData_of_sorted (insertStr_sorted hsorted),
          Option.some.injEq, decide_eq_true_eq]
        exact mem_insertStr.mpr (Or.inr hfind)
      · simp only [lmdbHashFind, if_neg hHlen,
          assocGet_assocPut_other _ _ _ _ hkey] at hfind ⊢
        exact hfind

/-- Inserting a hash whose (prefix, suffix) pair differs leaves `find`
unchanged for the other hash. -/
theorem lmdbHashFind_congr (cfg : HashCfg) {st st' : HStore}
    {h H : List Nat} {ch ch' : LmdbChanges}
    (hins : lmdbHashInsert cfg st h ch = some (st', ch'))
    (hpair : hashPair cfg H ≠ hashPair cfg h)
    (hHlen : H.length ≠ 0) :
    lmdbHashFind cfg st' H = lmdbHashFind cfg st H := by
  obtain ⟨hlen, hcases⟩ := lmdbHashInsert_inv cfg hins
  rcases hcases with ⟨hget, hst⟩ | ⟨enc, strings, hget, hdec, hbr⟩
  · subst hst
    by_cases hkey : (hashPair cfg h).1 = (hashPair cfg H).1
    · have hsuf : (hashPair cfg H).2 ≠ (hashPair cfg h).2 := by
        intro hs
        exact hpair (Prod.ext hkey.symm hs)
      rw [hkey] at hget
      simp only [lmdbHashFind, if_neg hHlen, hkey, assocGet_assocPut_same, hget,
        decodeData_encodeData_of_sorted (show StrSorted [(hashPair cfg h).2] by
          simp [StrSorted])]
      simp [hsuf]
    · simp only [lmdbHashFind, if_neg hHlen,
        assocGet_assocPut_other _ _ _ _ hkey]
  · rcases hbr with ⟨hmem, hst⟩ | ⟨hmem, hst⟩
    · subst hst
      rfl
    · subst hst
      have hsorted : StrSorted strings := decodeData_sorted hdec
      by_cases hkey : (hashPair cfg h).1 = (hashPair cfg H).1
      · have hsuf : (hashPair cfg H).2 ≠ (hashPair cfg h).2 := by
          intro hs
          exact hpair (Prod.ext hkey.symm hs)
        rw [hkey] at hget
        simp only [lmdbHashFind, if_neg hHlen, hkey, assocGet_assocPut_same,
          hget, hdec,
          decodeData_encodeData_of_sorted (insertStr_sorted hsorted),
          Option.some.injEq, decide_eq_decide]
        rw [mem_insertStr]
        simp [hsuf]
      · simp only [lmdbHashFind, if_neg hHlen,
          assocGet_assocPut_other _ _ _ _ hkey]

/-- On a well-formed store a non-empty hash always inserts successfully,
preserving well-formedness. -/
theorem lmdbHashInsert_total (cfg : HashCfg) {st : HStore} (hwf : WFHStore st)
    {h : List Nat} (hlen : h.length ≠ 0) (ch : LmdbChanges) :
    ∃ st' ch', lmdbHashInsert cfg st h ch = some (st', ch') ∧ WFHStore st' := by
  cases hget : assocGet st (hashPair cfg h).1 with
  | none =>
    refine ⟨assocPut st (hashPair cfg h).1 (encodeData [(hashPair cfg h).2]),
      { ch with hash_inserted := ch.hash_inserted + 1 },
      ?_, wfHStore_assocPut hwf _ _⟩
    simp only [lmdbHashInsert, if_neg hlen, hget]
  | some enc =>
    obtain ⟨l, rfl⟩ := wfHStore_of_assocGet hwf hget
    by_cases hmem : (hashPair cfg h).2 ∈ List.foldl insertStr [] l
    · refine ⟨st, { ch with
        hash_already_present := ch.hash_already_present + 1 }, ?_, hwf⟩
      simp only [lmdbHashInsert, if_neg hlen, hget, decodeData_encodeData,
        if_pos hmem]
    · refine ⟨assocPut st (hashPair cfg h).1
        (encodeData (insertStr (List.foldl insertStr [] l) (hashPair cfg h).2)),
        { ch with hash_inserted := ch.hash_inserted + 1 },
        ?_, wfHStore_assocPut hwf _ _⟩
      simp only [lmdbHashInsert, if_neg hlen, hget, decodeData_encodeData,
        if_neg hmem]

/-- Bulk insertion from a well-formed store succeeds, every inserted hash
is findable afterwards, and previously-findable hashes stay findable. -/
theorem lmdbHashInsertAll_spec (cfg : HashCfg) :
    ∀ (hs : List (List Nat)) (st : HStore) (ch : LmdbChanges),
      WFHStore st → (∀ h ∈ hs, h.length ≠ 0) →
      ∃ st' ch', lmdbHashInsertAll cfg hs st ch = some (st', ch') ∧ WFHStore st' ∧
        (∀ H, lmdbHashFind cfg st H = some true → lmdbHashFind cfg st' H = some true) ∧
        (∀ H ∈ hs, lmdbHashFind cfg st' H = some true) := by
  intro hs
  induction hs with
  | nil =>
    intro st ch hwf _
    exact ⟨st, ch, rfl, hwf, fun H h => h, fun H h => absurd h (List.not_mem_nil H)⟩
  | cons h rest ih =>
    intro st ch hwf hne
    obtain ⟨st1, ch1, hins, hwf1⟩ :=
      lmdbHashInsert_total cfg hwf (hne h (List.mem_cons_self h rest)) ch
    obtain ⟨st', ch', hall, hwf', hmono, hmem⟩ :=
      ih st1 ch1 hwf1 (fun x hx => hne x (List.mem_cons_of_mem h hx))
    refine ⟨st', ch', ?_, hwf', ?_, ?_⟩
    · simp only [lmdbHashInsertAll, hins, hall]
    · intro H hH
      exact hmono H (lmdbHashFind_mono cfg hins hH)
    · intro H hH
      rcases List.mem_cons.mp hH with rfl | hH'
      · exact hmono H (lmdbHashFind_after_insert cfg hins)
      · exact hmem H hH'

/-- Inserting hashes whose (prefix, suffix) pairs all differ from `H`'s
leaves `find H` unchanged. -/
theorem lmdbHashInsertAll_find_congr (cfg : HashCfg) {H : List Nat} :
    ∀ (hs : List (List Nat)) (st st' : HStore) (ch ch' : LmdbChanges),
      lmdbHashInsertAll cfg hs st ch = some (st', ch') →
      (∀ H' ∈ hs, hashPair cfg H ≠ hashPair cfg H') →
      H.length ≠ 0 →
      lmdbHashFind cfg st' H = lmdbHashFind cfg st H := by
  intro hs
  induction hs with
  | nil =>
    intro st st' ch ch' hall _ _
    simp only [lmdbHashInsertAll, Option.some.injEq, Prod.mk.injEq] at hall
    rw [← hall.1]
  | cons h rest ih =>
    intro st st' ch ch' hall hdiff hHlen
    cases hins : lmdbHashInsert cfg st h ch with
    | none =>
      exfalso
      simp only [lmdbHashInsertAll, hins] at hall
      exact Option.noConfusion hall
    | some p =>
      obtain ⟨st1, ch1⟩ := p
      simp only [lmdbHashInsertAll, hins] at hall
      rw [ih st1 st' ch1 ch' hall
        (fun H' hH' => hdiff H' (List.mem_cons_of_mem h hH')) hHlen]
      exact lmdbHashFind_congr cfg hins
        (hdiff h (List.mem_cons_self h rest)) hHlen

/-! ## Structure of `hashPair` on short hashes

When `prefix_bits` is a whole number of bytes (mask `0xff`) and the hash is
shorter than `prefix_bytes + suffix_bytes`, prefix and suffix concatenate
back to the hash, so `hashPair` is injective there. -/

theorem land255 (b : Nat) (hb : b < 256) : b &&& 255 = b := by
  have h : ∀ c < 256, c &&& 255 = c := by decide
  exact h b hb

theorem listGetD_mem : ∀ (l : List Nat) (i : Nat), i < l.length → l.getD i 0 ∈ l := by
  intro l
  induction l with
  | nil => intro i h; simp at h
  | cons x xs ih =>
    intro i h
    cases i with
    | zero => simp [List.getD]
    | succ j =>
      have : j < xs.length := by simpa using h
      simpa [List.getD] using List.mem_cons_of_mem x (ih j this)

theorem listSet_getD_self : ∀ (l : List Nat) (i : Nat), i < l.length →
    l.set i (l.getD i 0) = l := by
  intro l
  induction l with
  | nil => intro i h; simp at h
  | cons x xs ih =>
    intro i h
    cases i with
    | zero => simp [List.getD]
    | succ j =>
      have : j < xs.length := by simpa using h
      simp only [List.getD_cons_succ, List.set_cons_succ]
      rw [ih j this]

theorem listGetD_take : ∀ (l : List Nat) (n i : Nat), i < n →
    (l.take n).getD i 0 = l.getD i 0 := by
  intro l
  induction l with
  | nil => intro n i _; simp
  | cons x xs ih =>
    intro n i h
    cases n with
    | zero => omega
    | succ m =>
      cases i with
      | zero => simp [List.getD]
      | succ j =>
        simp only [List.take_succ_cons, List.getD_cons_succ]
        exact ih m j (by omega)

theorem set_take_mask (h : List Nat) (pb : Nat) (hpb : 1 ≤ pb)
    (hple : pb ≤ h.length) (hb : ∀ b ∈ h, b < 256) :
    (h.take pb).set (pb - 1) ((h.take pb).getD (pb - 1) 0 &&& 255) = h.take pb := by
  have hlt : pb - 1 < (h.take pb).length := by
    rw [List.length_take]
    omega
  have hmem : (h.take pb).getD (pb - 1) 0 ∈ h.take pb := listGetD_mem _ _ hlt
  have hmem' : (h.take pb).getD (pb - 1) 0 ∈ h := List.take_subset pb h hmem
  rw [land255 _ (hb _ hmem'), listSet_getD_self _ _ hlt]

theorem hashPair_append (cfg : HashCfg) (h : List Nat)
    (hbits : 0 < cfg.prefix_bits)
    (h8 : cfg.prefix_bits % 8 = 0)
    (hb : ∀ b ∈ h, b < 256)
    (hlen : h.length < prefixBytesOf cfg + cfg.suffix_bytes) :
    (hashPair cfg h).1 ++ (hashPair cfg h).2 = h := by
  have hmask : prefixMaskOf cfg = 255 := by
    unfold prefixMaskOf
    rw [h8]
    rfl
  have hpb1 : 1 ≤ prefixBytesOf cfg := by
    unfold prefixBytesOf
    omega
  rcases lt_trichotomy h.length (prefixBytesOf cfg) with hc | hc | hc
  · -- hash shorter than the prefix: prefix is the whole hash, suffix empty
    have h1 : ¬ (h.length > prefixBytesOf cfg) := by omega
    have h2 : ¬ (h.length = prefixBytesOf cfg) := by omega
    have h3 : max (h.length - cfg.suffix_bytes) h.length = h.length := by omega
    simp only [hashPair, if_neg h1, if_neg h2, h3, lt_irrefl, if_false,
      List.take_length, List.append_nil]
  · -- hash exactly prefix length: mask is the identity, suffix empty
    have h1 : ¬ (h.length > prefixBytesOf cfg) := by omega
    have h3 : max (h.length - cfg.suffix_bytes) h.length = h.length := by omega
    simp only [hashPair, if_neg h1, if_pos hc, h3, lt_irrefl, if_false,
      List.append_nil, hmask]
    rw [hc]
    rw [set_take_mask h (prefixBytesOf cfg) hpb1 (le_of_eq hc.symm) hb]
    rw [← hc, List.take_length]
  · -- hash longer than the prefix but shorter than prefix + suffix
    have h1 : h.length > prefixBytesOf cfg := hc
    have h3 : max (h.length - cfg.suffix_bytes) (prefixBytesOf cfg) =
        prefixBytesOf cfg := by omega
    have h4 : prefixBytesOf cfg < h.length := hc
    have h5 : (h.drop (prefixBytesOf cfg)).length ≤ cfg.suffix_bytes := by
      rw [List.length_drop]
      omega
    simp only [hashPair, if_pos h1, h3, if_pos h4, hmask,
      set_take_mask h (prefixBytesOf cfg) hpb1 (le_of_lt hc) hb]
    simp [List.take_of_length_le h5]

/-- With a whole-byte mask, `hashPair` separates distinct hashes shorter
than `prefix_bytes + suffix_bytes`. -/
theorem hashPair_inj (cfg : HashCfg) {h1 h2 : List Nat}
    (hbits : 0 < cfg.prefix_bits)
    (h8 : cfg.prefix_bits % 8 = 0)
    (hb1 : ∀ b ∈ h1, b < 256) (hb2 : ∀ b ∈ h2, b < 256)
    (hl1 : h1.length < prefixBytesOf cfg + cfg.suffix_bytes)
    (hl2 : h2.length < prefixBytesOf cfg + cfg.suffix_bytes)
    (hne : h1 ≠ h2) : hashPair cfg h1 ≠ hashPair cfg h2 := by
  intro he
  apply hne
  have e1 := hashPair_append cfg h1 hbits h8 hb1 hl1
  have e2 := hashPair_append cfg h2 hbits h8 hb2 hl2
  rw [← e1, ← e2, he]

/-! ## Bloom filter

Modelled from the spec: `bloom_filter_manager_t` is declared in
`bloom_filter_manager.hpp`, which is not among the sources.  The spec
describes a bit array of `M` bits with `k` hash functions derived from
disjoint 64-bit windows of the block hash; `add_hash_value` sets the `k`
bits and `probably_contains` tests them, and bits are only ever set, never
cleared.  The bit array is represented by the list of set bit indices. -/

def bytesToNat (bs : List Nat) : Nat :=
  bs.foldr (fun b acc => b + 256 * acc) 0

def bloomWindow (h : List Nat) (i : Nat) : Nat :=
  bytesToNat ((h.drop (8 * i)).take 8)

def bloomIndices (m k : Nat) (h : List Nat) : List Nat :=
  (List.range k).map (fun i => bloomWindow h i % m)

def bloomAdd (bits : List Nat) (m k : Nat) (h : List Nat) : List Nat :=
  bits ++ bloomIndices m k h

def bloomContains (bits : List Nat) (m k : Nat) (h : List Nat) : Bool :=
  (bloomIndices m k h).all (fun i => decide (i ∈ bits))

theorem bloomContains_bloomAdd (bits : List Nat) (m k : Nat) (h : List Nat) :
    bloomContains (bloomAdd bits m k h) m k h = true := by
  simp only [bloomContains, bloomAdd, List.all_eq_true, decide_eq_true_eq]
  intro i hi
  exact List.mem_append_right bits hi

theorem bloomContains_mono {bits : List Nat} {m k : Nat} {h : List Nat}
    (hc : bloomContains bits m k h = true) (h' : List Nat) :
    bloomContains (bloomAdd bits m k h') m k h = true := by
  simp only [bloomContains, List.all_eq_true, decide_eq_true_eq] at hc ⊢
  intro i hi
  exact List.mem_append_left _ (hc i hi)

/-! ## `lmdb_hash_manager_t` (hash-data variant) and `hashdb_changes_t`

`HashdbChanges` is `hashdb_changes_t` from `hashdb_changes.hpp`.  The
hash-data `insert` increments the misaligned-offset counter under the
identifier `hashes_not_inserted_invalid_sector_size`; the
`hashdb_changes_t` in these sources declares that counter as
`hashes_not_inserted_invalid_byte_alignment` (the two files are from
different snapshots of the same repository), and that field name is used
here.

The store is the LMDB dup-sort multimap as its list of (key, value)
entries; `MDB_GET_BOTH` is exact membership of the pair and
`mdb_put MDB_NODUPDATA` adds the absent pair.  `encode_hash_data` is
modelled from the spec (`lmdb_data_codec.hpp` is not among the sources):
varint(source-id) then varint(offset-index). -/

structure HashdbChanges where
  hashes_inserted : Nat
  hashes_not_inserted_mismatched_hash_block_size : Nat
  hashes_not_inserted_invalid_byte_alignment : Nat
  hashes_not_inserted_exceeds_max_duplicates : Nat
  hashes_not_inserted_duplicate_element : Nat
  hashes_removed : Nat
  hashes_not_removed_mismatched_hash_block_size : Nat
  hashes_not_removed_invalid_byte_alignment : Nat
  hashes_not_removed_no_hash : Nat
  hashes_not_removed_no_element : Nat
deriving DecidableEq

def hashdbChanges0 : HashdbChanges :=
  ⟨0, 0, 0, 0, 0, 0, 0, 0, 0, 0⟩

structure HdSettings where
  sector_size : Nat
  hash_truncation : Nat
  bloom_M : Nat
  bloom_k : Nat
deriving DecidableEq

structure HashDataEntry where
  binary_hash : List Nat
  file_offset : Nat
deriving DecidableEq

structure HdState where
  store : List (List Nat × List Nat)
  bloom : List Nat
  changes : HashdbChanges
deriving DecidableEq

def truncatedKey (s : HdSettings) (h : List Nat) : List Nat :=
  if s.hash_truncation ≠ 0 ∧ h.length > s.hash_truncation then
    h.take s.hash_truncation
  else h

/-- Modelled from the spec: `lmdb_data_codec::encode_hash_data` encodes
varint(source-id) then varint(offset-index). -/
def encode_hash_data (source_id offset_index : Nat) : List Nat :=
  encodeVarint source_id ++ encodeVarint offset_index

def hdInsertOne (s : HdSettings) (source_id : Nat) (st : HdState)
    (e : HashDataEntry) : HdState :=
  -- validate the byte alignment
  if e.file_offset % s.sector_size ≠ 0 then
    { st with changes := { st.changes with
        hashes_not_inserted_invalid_byte_alignment :=
          st.changes.hashes_not_inserted_invalid_byte_alignment + 1 } }
  else
    let offset_index := e.file_offset / s.sector_size
    let key := truncatedKey s e.binary_hash
    let data := encode_hash_data source_id offset_index
    if (key, data) ∈ st.store then
      -- this exact entry already exists
      { st with changes := { st.changes with
          hashes_not_inserted_duplicate_element :=
            st.changes.hashes_not_inserted_duplicate_element + 1 } }
    else
      { store := st.store ++ [(key, data)],
        bloom := bloomAdd st.bloom s.bloom_M s.bloom_k e.binary_hash,
        changes := { st.changes with
          hashes_inserted := st.changes.hashes_inserted + 1 } }

def hdInsert (s : HdSettings) (source_id : Nat)
    (hash_data_list : List HashDataEntry) (st : HdState) : HdState :=
  hash_data_list.foldl (hdInsertOne s source_id) st

/-- Bump only the invalid-alignment counter. -/
def bumpAlign (st : HdState) (n : Nat) : HdState :=
  { st with changes := { st.changes with
      hashes_not_inserted_invalid_byte_alignment :=
        st.changes.hashes_not_inserted_invalid_byte_alignment + n } }

theorem bumpAlign_bumpAlign (st : HdState) (a b : Nat) :
    bumpAlign (bumpAlign st a) b = bumpAlign st (a + b) := by
  obtain ⟨store, bloom, c1, c2, c3, c4, c5, c6, c7, c8, c9, c10⟩ := st
  simp only [bumpAlign, HdState.mk.injEq, HashdbChanges.mk.injEq, true_and,
    and_true, eq_self_iff_true]
  omega

theorem hdInsertOne_bumpAlign (s : HdSettings) (source_id : Nat)
    (st : HdState) (n : Nat) (e : HashDataEntry) :
    hdInsertOne s source_id (bumpAlign st n) e =
      bumpAlign (hdInsertOne s source_id st e) n := by
  obtain ⟨store, bloom, c1, c2, c3, c4, c5, c6, c7, c8, c9, c10⟩ := st
  simp only [hdInsertOne, bumpAlign]
  by_cases h1 : e.file_offset % s.sector_size ≠ 0
  · simp only [if_pos h1, HdState.mk.injEq, HashdbChanges.mk.injEq, true_and,
      and_true, eq_self_iff_true]
    omega
  · simp only [if_neg h1]
    by_cases h2 : (truncatedKey s e.binary_hash,
        encode_hash_data source_id (e.file_offset / s.sector_size)) ∈ store
    · simp [h2]
    · simp [h2]

theorem hdInsert_bumpAlign (s : HdSettings) (source_id : Nat) :
    ∀ (l : List HashDataEntry) (st : HdState) (n : Nat),
      hdInsert s source_id l (bumpAlign st n) =
        bumpAlign (hdInsert s source_id l st) n := by
  intro l
  induction l with
  | nil => intro st n; rfl
  | cons e rest ih =>
    intro st n
    simp only [hdInsert, List.foldl_cons] at ih ⊢
    rw [hdInsertOne_bumpAlign, ih]

/-- Misaligned entries only bump the alignment counter: the whole run
equals the run over the aligned entries plus one counter increment per
misaligned entry. -/
theorem hdInsert_filter_aligned (s : HdSettings) (source_id : Nat) :
    ∀ (l : List HashDataEntry) (st : HdState),
      hdInsert s source_id l st =
        bumpAlign
          (hdInsert s source_id
            (l.filter (fun e => e.file_offset % s.sector_size = 0)) st)
          (l.filter (fun e => ¬ e.file_offset % s.sector_size = 0)).length := by
  intro l
  induction l with
  | nil => intro st; simp [hdInsert, bumpAlign]
  | cons e rest ih =>
    intro st
    by_cases ha : e.file_offset % s.sector_size = 0
    · have hfa : List.filter (fun e => decide (e.file_offset % s.sector_size = 0))
          (e :: rest) = e :: List.filter
            (fun e => decide (e.file_offset % s.sector_size = 0)) rest := by
        simp [List.filter_cons, ha]
      have hfm : List.filter (fun e => decide (¬ e.file_offset % s.sector_size = 0))
          (e :: rest) = List.filter
            (fun e => decide (¬ e.file_offset % s.sector_size = 0)) rest := by
        simp [List.filter_cons, ha]
      simp only [hfa, hfm, hdInsert, List.foldl_cons]
      exact ih (hdInsertOne s source_id st e)
    · have hfa : List.filter (fun e => decide (e.file_offset % s.sector_size = 0))
          (e :: rest) = List.filter
            (fun e => decide (e.file_offset % s.sector_size = 0)) rest := by
        simp [List.filter_cons, ha]
      have hfm : List.filter (fun e => decide (¬ e.file_offset % s.sector_size = 0))
          (e :: rest) = e :: List.filter
            (fun e => decide (¬ e.file_offset % s.sector_size = 0)) rest := by
        simp [List.filter_cons, ha]
      have hone : hdInsertOne s source_id st e = bumpAlign st 1 := by
        simp only [hdInsertOne, if_pos (show e.file_offset % s.sector_size ≠ 0 from ha),
          bumpAlign]
      simp only [hfa, hfm, hdInsert, List.foldl_cons, hone, List.length_cons]
      rw [show (List.foldl (hdInsertOne s source_id) (bumpAlign st 1) rest) =
          hdInsert s source_id rest (bumpAlign st 1) from rfl]
      rw [hdInsert_bumpAlign, ih, bumpAlign_bumpAlign]
      rfl

/-- The store only ever grows by absent pairs, so it stays duplicate-free. -/
theorem hdInsert_nodup (s : HdSettings) (source_id : Nat) :
    ∀ (l : List HashDataEntry) (st : HdState),
      st.store.Nodup → (hdInsert s source_id l st).store.Nodup := by
  intro l
  induction l with
  | nil => intro st h; exact h
  | cons e rest ih =>
    intro st h
    simp only [hdInsert, List.foldl_cons]
    apply ih
    simp only [hdInsertOne]
    by_cases h1 : e.file_offset % s.sector_size ≠ 0
    · simpa [if_pos h1] using h
    · simp only [if_neg h1]
      by_cases h2 : (truncatedKey s e.binary_hash,
          encode_hash_data source_id (e.file_offset / s.sector_size)) ∈ st.store
      · simpa [if_pos h2] using h
      · simp only [if_neg h2]
        simpa [List.nodup_append] using ⟨h, h2⟩

/-! ## Set-algebra operators (`commands_t`)

A database is the ordered multimap of its `hashdb_element_t` entries, as
enumerated by `hashdb_iterator_t`: a list of elements sorted by key.
Keys abstract `hash_t` values through their total order (`add_multiple`
compares `hexdigest()` strings, which for equal-width hashes is the byte
order of the hashes); the remaining `hashdb_element_t` fields
(repository name, filename, file offset) are collapsed into `payload`,
which none of the operators inspect.

Modelled from the spec: `hashdb_manager_t::insert` is not among the
sources; per the spec's operators ("for each element insert into B") and
duplicate-suppression invariant, it places the element into its key
position of the ordered multimap unless the identical element is already
present.

`intersectLoopGo` and `addMultipleGo` carry a fuel argument so that the
definitions are structurally recursive; the wrappers supply the driver
length (respectively the sum of both lengths), which always suffices
because every iteration consumes at least one input element. -/

structure HElem where
  key : Nat
  payload : Nat
deriving DecidableEq

def keySorted (l : List HElem) : Prop :=
  l.Pairwise (fun a b => a.key ≤ b.key)

def sortedInsertElem : List HElem → HElem → List HElem
  | [], e => [e]
  | x :: xs, e =>
    if e.key < x.key then e :: x :: xs else x :: sortedInsertElem xs e

def dbInsert (db : List HElem) (e : HElem) : List HElem :=
  if e ∈ db then db else sortedInsertElem db e

def findCount (db : List HElem) (k : Nat) : Nat :=
  (db.filter (fun e => e.key == k)).length

def findRange (db : List HElem) (k : Nat) : List HElem :=
  db.filter (fun e => e.key == k)

theorem mem_sortedInsertElem {t e : HElem} {l : List HElem} :
    t ∈ sortedInsertElem l e ↔ t = e ∨ t ∈ l := by
  induction l with
  | nil => simp [sortedInsertElem]
  | cons x xs ih =>
    simp only [sortedInsertElem]
    by_cases h : e.key < x.key
    · simp [h]
    · simp only [if_neg h, List.mem_cons, ih]
      tauto

theorem mem_dbInsert {t e : HElem} {db : List HElem} :
    t ∈ dbInsert db e ↔ t ∈ db ∨ t = e := by
  simp only [dbInsert]
  by_cases h : e ∈ db
  · simp only [if_pos h]
    constructor
    · exact Or.inl
    · rintro (ht | rfl)
      · exact ht
      · exact h
  · simp only [if_neg h, mem_sortedInsertElem]
    tauto

theorem mem_foldl_dbInsert :
    ∀ {l C : List HElem} {t : HElem},
      t ∈ List.foldl dbInsert C l ↔ t ∈ C ∨ t ∈ l := by
  intro l
  induction l with
  | nil => intro C t; simp
  | cons e rest ih =>
    intro C t
    simp only [List.foldl_cons, ih, mem_dbInsert, List.mem_cons]
    tauto

theorem sortedInsertElem_sorted {l : List HElem} {e : HElem}
    (h : keySorted l) : keySorted (sortedInsertElem l e) := by
  induction l with
  | nil => simp [sortedInsertElem, keySorted]
  | cons x xs ih =>
    rw [keySorted, List.pairwise_cons] at h
    obtain ⟨hx, hxs⟩ := h
    simp only [sortedInsertElem]
    by_cases hk : e.key < x.key
    · rw [if_pos hk, keySorted, List.pairwise_cons]
      constructor
      · intro t ht
        rcases List.mem_cons.mp ht with rfl | ht'
        · omega
        · have := hx t ht'
          omega
      · rw [List.pairwise_cons]
        exact ⟨hx, hxs⟩
    · rw [if_neg hk, keySorted, List.pairwise_cons]
      constructor
      · intro t ht
        rcases mem_sortedInsertElem.mp ht with rfl | ht'
        · omega
        · exact hx t ht'
      · exact ih hxs

theorem dbInsert_sorted {db : List HElem} {e : HElem}
    (h : keySorted db) : keySorted (dbInsert db e) := by
  simp only [dbInsert]
  by_cases hm : e ∈ db
  · simpa [hm] using h
  · simpa [hm] using sortedInsertElem_sorted h

theorem foldl_dbInsert_sorted :
    ∀ {l C : List HElem}, keySorted C → keySorted (List.foldl dbInsert C l) := by
  intro l
  induction l with
  | nil => intro C h; exact h
  | cons e rest ih =>
    intro C h
    exact ih (dbInsert_sorted h)

/-- `commands_t::intersect_optimized`: iterate the smaller database; for
each key found in the larger database, copy the key's elements from the
smaller database (advancing the iterator `smaller_count` times) and from
the larger database (the `find` range) into the destination. -/
def intersectLoopGo (allDb larger : List HElem) :
    Nat → List HElem → List HElem → List HElem
  | _, [], C => C
  | 0, _ :: _, C => C
  | fuel + 1, e :: rest, C =>
    if 0 < findCount larger e.key then
      -- cnt is findCount over the whole smaller db; the iterator sits at
      -- the start of e.key's group, so it advances past exactly the group
      let cnt := findCount allDb e.key
      intersectLoopGo allDb larger fuel (rest.drop (cnt - 1))
        (List.foldl dbInsert C (((e :: rest).take cnt) ++ findRange larger e.key))
    else
      intersectLoopGo allDb larger fuel rest C

def intersect_optimized (smaller larger C : List HElem) : List HElem :=
  intersectLoopGo smaller larger smaller.length smaller C

/-- `commands_t::intersect`: drive by the smaller database (`map_size`). -/
def intersectDb (a b : List HElem) : List HElem :=
  if a.length ≤ b.length then intersect_optimized a b []
  else intersect_optimized b a []

/-- `commands_t::add_multiple`: merge both inputs in key order, ties
taking from the first database, then drain the leftover input. -/
def addMultipleGo : Nat → List HElem → List HElem → List HElem → List HElem
  | _, [], l2, C => List.foldl dbInsert C l2
  | _, e1 :: rest1, [], C => List.foldl dbInsert C (e1 :: rest1)
  | 0, _ :: _, _ :: _, C => C
  | fuel + 1, e1 :: rest1, e2 :: rest2, C =>
    if e1.key ≤ e2.key then
      addMultipleGo fuel rest1 (e2 :: rest2) (dbInsert C e1)
    else
      addMultipleGo fuel (e1 :: rest1) rest2 (dbInsert C e2)

def add_multiple (a b : List HElem) : List HElem :=
  addMultipleGo (a.length + b.length) a b []

theorem addMultipleGo_mem :
    ∀ (fuel : Nat) (l1 l2 C : List HElem), l1.length + l2.length ≤ fuel →
      ∀ t, t ∈ addMultipleGo fuel l1 l2 C ↔ t ∈ C ∨ t ∈ l1 ∨ t ∈ l2 := by
  intro fuel
  induction fuel with
  | zero =>
    intro l1 l2 C hlen t
    cases l1 with
    | nil => simp [addMultipleGo, mem_foldl_dbInsert]
    | cons e1 rest1 =>
      cases l2 with
      | nil =>
        simp only [addMultipleGo, List.foldl_cons, mem_foldl_dbInsert,
          mem_dbInsert, List.mem_cons, List.not_mem_nil, or_false]
        tauto
      | cons e2 rest2 => simp at hlen
  | succ f ih =>
    intro l1 l2 C hlen t
    cases l1 with
    | nil => simp [addMultipleGo, mem_foldl_dbInsert]
    | cons e1 rest1 =>
      cases l2 with
      | nil =>
        simp only [addMultipleGo, List.foldl_cons, mem_foldl_dbInsert,
          mem_dbInsert, List.mem_cons, List.not_mem_nil, or_false]
        tauto
      | cons e2 rest2 =>
        simp only [addMultipleGo]
        by_cases hk : e1.key ≤ e2.key
        · rw [if_pos hk, ih rest1 (e2 :: rest2) _ (by simp at hlen ⊢; omega) t]
          simp only [mem_dbInsert, List.mem_cons]
          tauto
        · rw [if_neg hk, ih (e1 :: rest1) rest2 _ (by simp at hlen ⊢; omega) t]
          simp only [mem_dbInsert, List.mem_cons]
          tauto

theorem addMultipleGo_sorted :
    ∀ (fuel : Nat) (l1 l2 C : List HElem), keySorted C →
      keySorted (addMultipleGo fuel l1 l2 C) := by
  intro fuel
  induction fuel with
  | zero =>
    intro l1 l2 C hC
    cases l1 with
    | nil => exact foldl_dbInsert_sorted hC
    | cons e1 rest1 =>
      cases l2 with
      | nil => exact foldl_dbInsert_sorted hC
      | cons e2 rest2 => exact hC
  | succ f ih =>
    intro l1 l2 C hC
    cases l1 with
    | nil => exact foldl_dbInsert_sorted hC
    | cons e1 rest1 =>
      cases l2 with
      | nil => exact foldl_dbInsert_sorted hC
      | cons e2 rest2 =>
        simp only [addMultipleGo]
        by_cases hk : e1.key ≤ e2.key
        · rw [if_pos hk]
          exact ih _ _ _ (dbInsert_sorted hC)
        · rw [if_neg hk]
          exact ih _ _ _ (dbInsert_sorted hC)

theorem findCount_append (l1 l2 : List HElem) (k : Nat) :
    findCount (l1 ++ l2) k = findCount l1 k + findCount l2 k := by
  simp [findCount, List.filter_append]

theorem findCount_pos_iff {db : List HElem} {k : Nat} :
    0 < findCount db k ↔ ∃ e ∈ db, e.key = k := by
  constructor
  · intro h
    rw [findCount] at h
    cases hf : db.filter (fun e => e.key == k) with
    | nil => rw [hf] at h; simp at h
    | cons x xs =>
      have hx : x ∈ db.filter (fun e => e.key == k) := by
        rw [hf]; exact List.mem_cons_self x xs
      rw [List.mem_filter] at hx
      exact ⟨x, hx.1, by simpa using hx.2⟩
  · intro ⟨e, he, hk⟩
    rw [findCount]
    have : e ∈ db.filter (fun e => e.key == k) := by
      rw [List.mem_filter]
      exact ⟨he, by simpa using hk⟩
    exact List.length_pos.mpr (List.ne_nil_of_mem this)

theorem mem_findRange {t : HElem} {db : List HElem} {k : Nat} :
    t ∈ findRange db k ↔ t ∈ db ∧ t.key = k := by
  simp [findRange, List.mem_filter]

theorem findCount_cons (x : HElem) (l : List HElem) (k : Nat) :
    findCount (x :: l) k =
      (if x.key = k then 1 else 0) + findCount l k := by
  by_cases h : x.key = k
  · simp [findCount, List.filter_cons, h]
    omega
  · simp [findCount, List.filter_cons, h]

theorem filter_key_eq_takeWhile :
    ∀ (l : List HElem) (k : Nat), keySorted l → (∀ x ∈ l, k ≤ x.key) →
      l.filter (fun e => e.key == k) = l.takeWhile (fun e => e.key == k) := by
  intro l
  induction l with
  | nil => intro k _ _; rfl
  | cons x xs ih =>
    intro k hs hk
    rw [keySorted, List.pairwise_cons] at hs
    obtain ⟨hx, hxs⟩ := hs
    by_cases hxk : x.key = k
    · have hbeq : (x.key == k) = true := by simpa using hxk
      rw [List.filter_cons, List.takeWhile_cons, hbeq]
      simp only [if_true]
      rw [ih k hxs (fun y hy => hk y (List.mem_cons_of_mem x hy))]
    · have hlt : k < x.key :=
        lt_of_le_of_ne (hk x (List.mem_cons_self x xs)) (Ne.symm hxk)
      have hnone : ∀ y ∈ x :: xs, ¬ ((fun e => e.key == k) y = true) := by
        intro y hy
        rcases List.mem_cons.mp hy with rfl | hy'
        · simpa using hxk
        · have := hx y hy'
          simp only [beq_iff_eq]
          omega
      rw [List.filter_eq_nil_iff.mpr hnone]
      have hbeq : (x.key == k) = false := by simpa using hxk
      rw [List.takeWhile_cons, hbeq]
      simp

/-- What `intersect_optimized`'s loop copies: from a group boundary, the
destination accumulates exactly the driver elements whose key occurs in
the larger database and the larger-database elements whose key occurs in
the remaining driver. -/
theorem intersectLoopGo_mem :
    ∀ (fuel : Nat) (done rem larger C : List HElem),
      rem.length ≤ fuel →
      keySorted (done ++ rem) →
      (∀ f ∈ done, 0 < findCount rem f.key → findCount larger f.key = 0) →
      ∀ t, t ∈ intersectLoopGo (done ++ rem) larger fuel rem C ↔
        (t ∈ C ∨ (t ∈ rem ∧ 0 < findCount larger t.key) ∨
         (t ∈ larger ∧ 0 < findCount rem t.key)) := by
  intro fuel
  induction fuel with
  | zero =>
    intro done rem larger C hlen _ _ t
    have hrem : rem = [] := List.eq_nil_of_length_eq_zero (by omega)
    subst hrem
    simp [intersectLoopGo, findCount]
  | succ f ih =>
    intro done rem larger C hlen hsorted hinv t
    cases rem with
    | nil => simp [intersectLoopGo, findCount]
    | cons e rest =>
      have hsrem : keySorted (e :: rest) :=
        ((List.pairwise_append.mp hsorted).2.1 : _)
      have hklow : ∀ x ∈ e :: rest, e.key ≤ x.key := by
        intro x hx
        rcases List.mem_cons.mp hx with rfl | hx'
        · exact le_rfl
        · exact (List.pairwise_cons.mp hsrem).1 x hx'
      by_cases hbr : 0 < findCount larger e.key
      · -- the driver key occurs in the larger db: copy both groups
        set grp := (e :: rest).takeWhile (fun x => x.key == e.key) with hgrp
        set rst := (e :: rest).dropWhile (fun x => x.key == e.key) with hrst
        have hsplit : grp ++ rst = e :: rest :=
          List.takeWhile_append_dropWhile _ _
        have hgrpk : ∀ x ∈ grp, x.key = e.key := by
          intro x hx
          have := List.mem_takeWhile_imp hx
          simpa using this
        have hfilter : (e :: rest).filter (fun x => x.key == e.key) = grp :=
          filter_key_eq_takeWhile (e :: rest) e.key hsrem hklow
        have hcntrem : findCount (e :: rest) e.key = grp.length := by
          rw [findCount, hfilter]
        have hgrpcons : ∃ gtl, grp = e :: gtl := by
          rw [hgrp]
          exact ⟨_, List.takeWhile_cons_of_pos (by simp)⟩
        obtain ⟨gtl, hgtl⟩ := hgrpcons
        have hgrplen : 0 < grp.length := by rw [hgtl]; simp
        have hdone0 : findCount done e.key = 0 := by
          by_contra hne
          have hpos : 0 < findCount done e.key := Nat.pos_of_ne_zero hne
          obtain ⟨g, hg, hgk⟩ := findCount_pos_iff.mp hpos
          have h1 : 0 < findCount (e :: rest) g.key := by
            rw [hgk]
            rw [hcntrem]
            exact hgrplen
          have := hinv g hg h1
          rw [hgk] at this
          omega
        have hcnt : findCount (done ++ e :: rest) e.key = grp.length := by
          rw [findCount_append, hdone0, hcntrem]
          omega
        have hgrpfull : findCount grp e.key = grp.length := by
          have : grp.filter (fun x => x.key == e.key) = grp :=
            List.filter_eq_self.mpr (fun a ha => by simpa using hgrpk a ha)
          rw [findCount, this]
        have hrst0 : findCount rst e.key = 0 := by
          have := findCount_append grp rst e.key
          rw [hsplit, hcntrem, hgrpfull] at this
          omega
        have htake : (e :: rest).take grp.length = grp := by
          conv_lhs => rw [← hsplit]
          exact List.take_left grp rst
        have hdrop : rest.drop (grp.length - 1) = rst := by
          have h1 : (e :: rest).drop grp.length = rst := by
            conv_lhs => rw [← hsplit]
            exact List.drop_left grp rst
          rw [hgtl] at h1 ⊢
          simpa using h1
        have hall : done ++ e :: rest = (done ++ grp) ++ rst := by
          rw [List.append_assoc, hsplit]
        have hinv' : ∀ g ∈ done ++ grp, 0 < findCount rst g.key →
            findCount larger g.key = 0 := by
          intro g hg hgpos
          rcases List.mem_append.mp hg with hgd | hgg
          · apply hinv g hgd
            have := findCount_append grp rst g.key
            rw [hsplit] at this
            omega
          · have hk : g.key = e.key := hgrpk g hgg
            rw [hk] at hgpos
            omega
        have hsorted' : keySorted ((done ++ grp) ++ rst) := by
          rw [← hall]
          exact hsorted
        have hlen' : rst.length ≤ f := by
          have : grp.length + rst.length = (e :: rest).length := by
            rw [← hsplit, List.length_append]
          simp only [List.length_cons] at this hlen
          omega
        -- unfold one loop step
        simp only [intersectLoopGo, if_pos hbr, hcnt, htake, hdrop]
        rw [hall]
        rw [ih (done ++ grp) rst larger _ hlen' hsorted' hinv' t]
        rw [mem_foldl_dbInsert]
        constructor
        · rintro ((hC | hnew) | ⟨ht, hl⟩ | ⟨ht, hc⟩)
          · exact Or.inl hC
          · rcases List.mem_append.mp hnew with hg | hr
            · refine Or.inr (Or.inl ⟨?_, ?_⟩)
              · rw [← hsplit]
                exact List.mem_append_left rst hg
              · rw [hgrpk t hg]
                exact hbr
            · rw [mem_findRange] at hr
              refine Or.inr (Or.inr ⟨hr.1, ?_⟩)
              rw [hr.2, hcntrem]
              exact hgrplen
          · refine Or.inr (Or.inl ⟨?_, hl⟩)
            rw [← hsplit]
            exact List.mem_append_right grp ht
          · refine Or.inr (Or.inr ⟨ht, ?_⟩)
            have := findCount_append grp rst t.key
            rw [hsplit] at this
            omega
        · rintro (hC | ⟨ht, hl⟩ | ⟨ht, hc⟩)
          · exact Or.inl (Or.inl hC)
          · rw [← hsplit] at ht
            rcases List.mem_append.mp ht with hg | hr
            · exact Or.inl (Or.inr (List.mem_append_left _ hg))
            · exact Or.inr (Or.inl ⟨hr, hl⟩)
          · have hsum := findCount_append grp rst t.key
            rw [hsplit] at hsum
            by_cases hgpos : 0 < findCount grp t.key
            · obtain ⟨g, hgg, hgk⟩ := findCount_pos_iff.mp hgpos
              have htk : t.key = e.key := by
                rw [← hgk]
                exact (hgrpk g hgg).symm ▸ rfl
              refine Or.inl (Or.inr (List.mem_append_right _ ?_))
              rw [mem_findRange]
              exact ⟨ht, by rw [htk]⟩
            · exact Or.inr (Or.inr ⟨ht, by omega⟩)
      · -- key absent from the larger db: skip this element
        have hbr0 : findCount larger e.key = 0 := by omega
        have hall : done ++ e :: rest = (done ++ [e]) ++ rest := by
          rw [List.append_assoc]
          rfl
        have hinv' : ∀ g ∈ done ++ [e], 0 < findCount rest g.key →
            findCount larger g.key = 0 := by
          intro g hg hgpos
          rcases List.mem_append.mp hg with hgd | hge
          · apply hinv g hgd
            rw [findCount_cons]
            omega
          · have : g = e := by simpa using hge
            rw [this]
            exact hbr0
        have hsorted' : keySorted ((done ++ [e]) ++ rest) := by
          rw [← hall]
          exact hsorted
        have hlen' : rest.length ≤ f := by
          simp only [List.length_cons] at hlen
          omega
        simp only [intersectLoopGo, if_neg hbr]
        rw [hall]
        rw [ih (done ++ [e]) rest larger C hlen' hsorted' hinv' t]
        constructor
        · rintro (hC | ⟨ht, hl⟩ | ⟨ht, hc⟩)
          · exact Or.inl hC
          · exact Or.inr (Or.inl ⟨List.mem_cons_of_mem e ht, hl⟩)
          · refine Or.inr (Or.inr ⟨ht, ?_⟩)
            rw [findCount_cons]
            omega
        · rintro (hC | ⟨ht, hl⟩ | ⟨ht, hc⟩)
          · exact Or.inl hC
          · rcases List.mem_cons.mp ht with rfl | ht'
            · omega
            · exact Or.inr (Or.inl ⟨ht', hl⟩)
          · rw [findCount_cons] at hc
            by_cases hek : e.key = t.key
            · exfalso
              have : 0 < findCount larger e.key := by
                rw [hek]
                exact findCount_pos_iff.mpr ⟨t, ht, rfl⟩
              omega
            · rw [if_neg hek] at hc
              exact Or.inr (Or.inr ⟨ht, by omega⟩)

theorem intersectDb_mem (A B : List HElem) (hA : keySorted A) (hB : keySorted B)
    (t : HElem) :
    t ∈ intersectDb A B ↔
      (t ∈ A ∧ 0 < findCount B t.key) ∨ (t ∈ B ∧ 0 < findCount A t.key) := by
  unfold intersectDb intersect_optimized
  by_cases h : A.length ≤ B.length
  · rw [if_pos h]
    have hmem := intersectLoopGo_mem A.length [] A B [] le_rfl
      (by simpa using hA) (by simp) t
    simp only [List.nil_append] at hmem
    rw [hmem]
    simp
  · rw [if_neg h]
    have hmem := intersectLoopGo_mem B.length [] B A [] le_rfl
      (by simpa using hB) (by simp) t
    simp only [List.nil_append] at hmem
    rw [hmem]
    simp
    tauto

/-! ## `import_json_t`

A parsed JSON record is modelled field by field: `none` stands for
"member absent or of the wrong type", exactly the
`!HasMember(..) || !Is<Type>(..)` checks of `read_source_data` and
`read_block_hash_data`.  The `hex_to_bin` recoding of hex strings into
binary (from `hex_helper.hpp`, not among the sources) is elided: the
parsed string is carried through unchanged, which affects no claim about
ordering, validation or reporting.  Results are the emitted
`import_manager` calls plus the `report_invalid_line` field names. -/

inductive JVal where
  | str (s : String)
  | num (n : Nat)
  | other
deriving DecidableEq

inductive ImportAction where
  | insertSourceData (fileHash : String) (filesize : Nat)
      (fileType : String) (nonprobativeCount : Nat)
  | insertSourceName (fileHash : String) (repositoryName : String)
      (filename : String)
deriving DecidableEq

structure NameItem where
  repository_name : Option String
  filename : Option String
deriving DecidableEq

structure SourceDoc where
  file_hash : Option String
  filesize : Option Nat
  file_type : Option String
  nonprobative_count : Option Nat
  names : Option (List NameItem)
deriving DecidableEq

def readNames (fileHash : String) :
    List NameItem → List ImportAction × List String
  | [] => ([], [])
  | item :: rest =>
    match item.repository_name with
    | none => ([], ["source data repository_name"])
    | some rn =>
      match item.filename with
      | none => ([], ["source data filename"])
      | some fn =>
        let r := readNames fileHash rest
        (.insertSourceName fileHash rn fn :: r.1, r.2)

def read_source_data (doc : SourceDoc) : List ImportAction × List String :=
  match doc.file_hash with
  | none => ([], ["source data file_hash"])
  | some fileHash =>
    match doc.filesize with
    | none => ([], ["source data filesize"])
    | some filesize =>
      -- file_type and nonprobative_count are optional with defaults
      let fileType := doc.file_type.getD ""
      let nonprobativeCount := doc.nonprobative_count.getD 0
      -- the source data is inserted before names is validated
      let base := ImportAction.insertSourceData fileHash filesize fileType
        nonprobativeCount
      match doc.names with
      | none => ([base], ["source data names"])
      | some items =>
        let r := readNames fileHash items
        (base :: r.1, r.2)

structure BlockHashDoc where
  block_hash : Option String
  entropy : Option Nat
  block_label : Option String
  source_offset_pairs : Option (List JVal)
deriving DecidableEq

/-- The `for (i; i+1 < Size; i += 2)` loop over `source_offset_pairs`:
consume elements two at a time, reporting and stopping on an invalid
element; a trailing unpaired element never enters the loop. -/
def readPairsLoop : List JVal → List (String × Nat) × List String
  | a :: b :: rest =>
    match a with
    | .str s =>
      match b with
      | .num n =>
        let r := readPairsLoop rest
        ((s, n) :: r.1, r.2)
      | _ => ([], ["block hash data source_offset_pair file offset"])
    | _ => ([], ["block hash data source_offset_pair source hash"])
  | _ => ([], [])

def read_block_hash_data (doc : BlockHashDoc) :
    List (String × String × Nat × Nat × String) × List String :=
  match doc.block_hash with
  | none => ([], ["block hash data block_hash"])
  | some blockHash =>
    let entropy := doc.entropy.getD 0
    let blockLabel := doc.block_label.getD ""
    match doc.source_offset_pairs with
    | none => ([], ["block hash data source_offset_pairs"])
    | some pairs =>
      let r := readPairsLoop pairs
      (r.1.map (fun p => (blockHash, p.1, p.2, entropy, blockLabel)), r.2)

def pairsJson : List (String × Nat) → List JVal
  | [] => []
  | p :: rest => JVal.str p.1 :: JVal.num p.2 :: pairsJson rest

theorem readPairsLoop_pairs :
    ∀ (ps : List (String × Nat)), readPairsLoop (pairsJson ps) = (ps, []) := by
  intro ps
  induction ps with
  | nil => rfl
  | cons p rest ih =>
    obtain ⟨s, n⟩ := p
    simp only [pairsJson, readPairsLoop, ih]

theorem readPairsLoop_odd :
    ∀ (ps : List (String × Nat)) (j : JVal),
      readPairsLoop (pairsJson ps ++ [j]) = (ps, []) := by
  intro ps
  induction ps with
  | nil => intro j; rfl
  | cons p rest ih =>
    intro j
    obtain ⟨s, n⟩ := p
    simp only [pairsJson, List.cons_append, readPairsLoop, List.append_eq, ih]

theorem readNames_valid_head (fileHash : String) :
    ∀ (good : List (String × String)) (bad : NameItem) (rest : List NameItem),
      (bad.repository_name = none ∨ bad.filename = none) →
      readNames fileHash
          ((good.map (fun p => NameItem.mk (some p.1) (some p.2))) ++ bad :: rest) =
        (good.map (fun p => ImportAction.insertSourceName fileHash p.1 p.2),
         if bad.repository_name = none then ["source data repository_name"]
         else ["source data filename"]) := by
  intro good
  induction good with
  | nil =>
    intro bad rest hbad
    rcases hb : bad.repository_name with _ | rn
    · simp only [List.map_nil, List.nil_append, readNames, hb,
        eq_self_iff_true, if_true]
    · have hf : bad.filename = none := by
        rcases hbad with h | h
        · rw [hb] at h
          exact Option.noConfusion h
        · exact h
      simp only [List.map_nil, List.nil_append, readNames, hb, hf]
      rw [if_neg (by simp [hb])]
  | cons p good' ih =>
    intro bad rest hbad
    obtain ⟨rn, fn⟩ := p
    simp only [List.map_cons, List.cons_append, readNames, List.append_eq,
      ih bad rest hbad]

/-! ## Claims -/

/-- C1: every non-empty block hash inserted into the hash store is found by
a subsequent `find`, whether the insert was counted as `hash_inserted` or
`hash_already_present`, and after a successful hash-data insert the bloom
filter reports the hash as possibly present (and stays positive under
later adds, since bits are only ever set). -/
theorem inserted_hash_found_and_bloom_positive :
    (∀ (cfg : HashCfg) (hs : List (List Nat)) (H : List Nat) (ch0 : LmdbChanges),
      0 < cfg.prefix_bits → (∀ h ∈ hs, h.length ≠ 0) → H ∈ hs →
      (lmdbHashInsertAll cfg hs [] ch0).map
          (fun p => lmdbHashFind cfg p.1 H) = some (some true)) ∧
    (∀ (s : HdSettings) (source_id : Nat) (st : HdState) (e : HashDataEntry),
      e.file_offset % s.sector_size = 0 →
      (truncatedKey s e.binary_hash,
        encode_hash_data source_id (e.file_offset / s.sector_size)) ∉ st.store →
      bloomContains (hdInsertOne s source_id st e).bloom s.bloom_M s.bloom_k
        e.binary_hash = true) ∧
    (∀ (bits : List Nat) (m k : Nat) (h h' : List Nat),
      bloomContains bits m k h = true →
      bloomContains (bloomAdd bits m k h') m k h = true) := by
  refine ⟨?_, ?_, ?_⟩
  · intro cfg hs H ch0 hbits hne hmem
    obtain ⟨st', ch', hall, _, _, hfind⟩ :=
      lmdbHashInsertAll_spec cfg hs [] ch0 wfHStore_nil hne
    rw [hall, Option.map_some', hfind H hmem]
  · intro s source_id st e halign hnotin
    simp only [hdInsertOne,
      if_neg (show ¬ e.file_offset % s.sector_size ≠ 0 by omega),
      if_neg hnotin]
    exact bloomContains_bloomAdd _ _ _ _
  · intro bits m k h h' hc
    exact bloomContains_mono hc h'

theorem inserted_hash_found_and_bloom_positive_witness :
    ((lmdbHashInsertAll (HashCfg.mk 16 14) [[1, 2, 3]] [] (LmdbChanges.mk 0 0)).map
        (fun p => lmdbHashFind (HashCfg.mk 16 14) p.1 [1, 2, 3]) =
      some (some true)) ∧
    (bloomContains (hdInsertOne (HdSettings.mk 512 0 16 2) 1
        (HdState.mk [] [] hashdbChanges0) (HashDataEntry.mk [171] 0)).bloom
      16 2 [171] = true) := by
  constructor
  · exact inserted_hash_found_and_bloom_positive.1 (HashCfg.mk 16 14)
      [[1, 2, 3]] [1, 2, 3] (LmdbChanges.mk 0 0) (by decide) (by decide) (by decide)
  · exact inserted_hash_found_and_bloom_positive.2.1 (HdSettings.mk 512 0 16 2) 1
      (HdState.mk [] [] hashdbChanges0) (HashDataEntry.mk [171] 0)
      (by decide) (by decide)

/-- C2 counterexample: the claim fails as stated.  With prefix_bits = 8 and
suffix_bytes = 1, the never-inserted hash [0, 9, 2] is reported found after
inserting only [0, 1, 2], because the two hashes share (prefix, suffix). -/
theorem hash_store_false_positive_counterexample :
    ((lmdbHashInsert (HashCfg.mk 8 1) [] [0, 1, 2] (LmdbChanges.mk 0 0)).map
        (fun p => lmdbHashFind (HashCfg.mk 8 1) p.1 [0, 9, 2]) =
      some (some true)) ∧
    ([0, 9, 2] : List Nat) ≠ [0, 1, 2] := by
  decide

/-- C2 (amended): `find` returns false for a never-inserted non-empty hash
whose (prefix, suffix) pair differs from that of every inserted hash — the
store is exact only up to (prefix, suffix) collisions. -/
theorem hash_store_no_false_positive_amended :
    ∀ (cfg : HashCfg) (hs : List (List Nat)) (H : List Nat) (ch0 : LmdbChanges),
      0 < cfg.prefix_bits → (∀ h ∈ hs, h.length ≠ 0) → H.length ≠ 0 →
      (∀ h ∈ hs, hashPair cfg H ≠ hashPair cfg h) →
      (lmdbHashInsertAll cfg hs [] ch0).map
        (fun p => lmdbHashFind cfg p.1 H) = some (some false) := by
  intro cfg hs H ch0 hbits hne hH hdiff
  obtain ⟨st', ch', hall, _, _, _⟩ :=
    lmdbHashInsertAll_spec cfg hs [] ch0 wfHStore_nil hne
  rw [hall, Option.map_some',
    lmdbHashInsertAll_find_congr cfg hs [] st' ch0 ch' hall hdiff hH]
  simp [lmdbHashFind, hH, assocGet]

theorem hash_store_no_false_positive_amended_witness :
    (lmdbHashInsertAll (HashCfg.mk 8 1) [[0, 1, 2]] [] (LmdbChanges.mk 0 0)).map
      (fun p => lmdbHashFind (HashCfg.mk 8 1) p.1 [5]) = some (some false) :=
  hash_store_no_false_positive_amended (HashCfg.mk 8 1) [[0, 1, 2]] [5]
    (LmdbChanges.mk 0 0) (by decide) (by decide) (by decide) (by decide)

/-- C3 counterexample: the claim fails as stated.  With prefix_bits = 12
and suffix_bytes = 3, the distinct two-byte hashes [170, 1] and [170, 2]
(shorter than prefix_bytes + suffix_bytes = 5) collide: the mask 0xf0
zeroes the bits that distinguish them, so inserting one makes `find` of
the other return true. -/
theorem short_hash_collision_counterexample :
    ([170, 1] : List Nat) ≠ [170, 2] ∧
    ([170, 1] : List Nat).length <
      prefixBytesOf (HashCfg.mk 12 3) + (HashCfg.mk 12 3).suffix_bytes ∧
    ([170, 2] : List Nat).length <
      prefixBytesOf (HashCfg.mk 12 3) + (HashCfg.mk 12 3).suffix_bytes ∧
    ((lmdbHashInsert (HashCfg.mk 12 3) [] [170, 1] (LmdbChanges.mk 0 0)).map
        (fun p => lmdbHashFind (HashCfg.mk 12 3) p.1 [170, 2]) =
      some (some true)) := by
  decide

/-- C3 (amended): when prefix_bits is a whole number of bytes (so the mask
0xff drops no bits), the store distinguishes distinct byte-valued hashes
shorter than prefix_bytes + suffix_bytes exactly: their (prefix, suffix)
pairs differ, and inserting one leaves `find` of the other unchanged. -/
theorem short_hash_exact_amended :
    ∀ (cfg : HashCfg) (h1 h2 : List Nat),
      0 < cfg.prefix_bits → cfg.prefix_bits % 8 = 0 →
      (∀ b ∈ h1, b < 256) → (∀ b ∈ h2, b < 256) →
      h1.length < prefixBytesOf cfg + cfg.suffix_bytes →
      h2.length < prefixBytesOf cfg + cfg.suffix_bytes →
      h1 ≠ h2 → h2.length ≠ 0 →
      hashPair cfg h1 ≠ hashPair cfg h2 ∧
      (∀ (st st' : HStore) (ch ch' : LmdbChanges),
        lmdbHashInsert cfg st h1 ch = some (st', ch') →
        lmdbHashFind cfg st' h2 = lmdbHashFind cfg st h2) := by
  intro cfg h1 h2 hbits h8 hb1 hb2 hl1 hl2 hne hh2
  have hpair := hashPair_inj cfg hbits h8 hb1 hb2 hl1 hl2 hne
  refine ⟨hpair, ?_⟩
  intro st st' ch ch' hins
  exact lmdbHashFind_congr cfg hins (Ne.symm hpair) hh2

theorem short_hash_exact_amended_witness :
    hashPair (HashCfg.mk 16 14) [1] ≠ hashPair (HashCfg.mk 16 14) [2] ∧
    lmdbHashFind (HashCfg.mk 16 14) [([1], [0])] [2] =
      lmdbHashFind (HashCfg.mk 16 14) [] [2] := by
  have h := short_hash_exact_amended (HashCfg.mk 16 14) [1] [2]
    (by decide) (by decide) (by decide) (by decide) (by decide) (by decide)
    (by decide) (by decide)
  exact ⟨h.1, h.2 [] [([1], [0])] (LmdbChanges.mk 0 0) (LmdbChanges.mk 1 0)
    (by decide)⟩

/-- C4: decoding the encoding of a non-empty sorted set of byte strings of
length at most suffix_bytes yields the same set, and the decode consumes
exactly the encoded buffer (`decodeData` is `none` exactly when the
consumption is not exact, the C++ assert). -/
theorem encode_decode_roundtrip :
    ∀ (suffix_bytes : Nat) (strings : List (List Nat)),
      strings ≠ [] → StrSorted strings →
      (∀ s ∈ strings, s.length ≤ suffix_bytes) →
      decodeData (encodeData strings) = some strings := by
  intro sb strings hne hs hlen
  exact decodeData_encodeData_of_sorted hs

theorem encode_decode_roundtrip_witness :
    decodeData (encodeData [[1], [2]]) = some [[1], [2]] :=
  encode_decode_roundtrip 14 [[1], [2]] (by decide)
    (by simp [StrSorted, List.pairwise_cons]; decide) (by decide)

/-- C5: the hash-data insert counts each entry whose file_offset is not a
multiple of sector_size exactly once in
`hashes_not_inserted_invalid_byte_alignment`, stores nothing for it, and
continues with the remaining entries: the run equals the run over the
aligned entries alone, with the counter raised by the number of misaligned
entries. -/
theorem invalid_alignment_counted_and_skipped :
    ∀ (s : HdSettings) (source_id : Nat) (l : List HashDataEntry) (st : HdState),
      (hdInsert s source_id l st).changes.hashes_not_inserted_invalid_byte_alignment =
        (hdInsert s source_id
            (l.filter (fun e => e.file_offset % s.sector_size = 0))
            st).changes.hashes_not_inserted_invalid_byte_alignment +
          (l.filter (fun e => ¬ e.file_offset % s.sector_size = 0)).length ∧
      (hdInsert s source_id l st).store =
        (hdInsert s source_id
          (l.filter (fun e => e.file_offset % s.sector_size = 0)) st).store ∧
      (hdInsert s source_id l st).bloom =
        (hdInsert s source_id
          (l.filter (fun e => e.file_offset % s.sector_size = 0)) st).bloom := by
  intro s source_id l st
  rw [hdInsert_filter_aligned s source_id l st]
  exact ⟨rfl, rfl, rfl⟩

/-- C6: the hash-data store never contains two identical entries:
insertion preserves a duplicate-free store, and inserting the same aligned
observation twice from a state not containing it yields
`hashes_inserted` + 1 and `hashes_not_inserted_duplicate_element` + 1, the
second insert leaving the store unchanged. -/
theorem hash_data_duplicate_suppression :
    (∀ (s : HdSettings) (source_id : Nat) (l : List HashDataEntry) (st : HdState),
      st.store.Nodup → (hdInsert s source_id l st).store.Nodup) ∧
    (∀ (s : HdSettings) (source_id : Nat) (st : HdState) (e : HashDataEntry),
      e.file_offset % s.sector_size = 0 →
      (truncatedKey s e.binary_hash,
        encode_hash_data source_id (e.file_offset / s.sector_size)) ∉ st.store →
      (hdInsert s source_id [e, e] st).store =
          st.store ++ [(truncatedKey s e.binary_hash,
            encode_hash_data source_id (e.file_offset / s.sector_size))] ∧
      (hdInsert s source_id [e, e] st).changes.hashes_inserted =
          st.changes.hashes_inserted + 1 ∧
      (hdInsert s source_id [e, e] st).changes.hashes_not_inserted_duplicate_element =
          st.changes.hashes_not_inserted_duplicate_element + 1) := by
  constructor
  · exact fun s source_id l st h => hdInsert_nodup s source_id l st h
  · intro s source_id st e halign hnot
    have hal : ¬ e.file_offset % s.sector_size ≠ 0 := by omega
    have hstep1 : hdInsertOne s source_id st e =
        { store := st.store ++ [(truncatedKey s e.binary_hash,
            encode_hash_data source_id (e.file_offset / s.sector_size))],
          bloom := bloomAdd st.bloom s.bloom_M s.bloom_k e.binary_hash,
          changes := { st.changes with
            hashes_inserted := st.changes.hashes_inserted + 1 } } := by
      simp only [hdInsertOne, if_neg hal, if_neg hnot]
    have hmem2 : (truncatedKey s e.binary_hash,
        encode_hash_data source_id (e.file_offset / s.sector_size)) ∈
        st.store ++ [(truncatedKey s e.binary_hash,
          encode_hash_data source_id (e.file_offset / s.sector_size))] := by
      simp
    have hstep2 : hdInsert s source_id [e, e] st =
        { store := st.store ++ [(truncatedKey s e.binary_hash,
            encode_hash_data source_id (e.file_offset / s.sector_size))],
          bloom := bloomAdd st.bloom s.bloom_M s.bloom_k e.binary_hash,
          changes := { st.changes with
            hashes_inserted := st.changes.hashes_inserted + 1,
            hashes_not_inserted_duplicate_element :=
              st.changes.hashes_not_inserted_duplicate_element + 1 } } := by
      simp only [hdInsert, List.foldl_cons, List.foldl_nil, hstep1]
      simp only [hdInsertOne, if_neg hal, if_pos hmem2]
    rw [hstep2]
    exact ⟨rfl, rfl, rfl⟩

theorem hash_data_duplicate_suppression_witness :
    (hdInsert (HdSettings.mk 512 0 16 2) 1
        [HashDataEntry.mk [171] 0, HashDataEntry.mk [171] 0]
        (HdState.mk [] [] hashdbChanges0)).store =
      [] ++ [(truncatedKey (HdSettings.mk 512 0 16 2) [171],
        encode_hash_data 1 (0 / 512))] ∧
    (hdInsert (HdSettings.mk 512 0 16 2) 1
        [HashDataEntry.mk [171] 0, HashDataEntry.mk [171] 0]
        (HdState.mk [] [] hashdbChanges0)).changes.hashes_inserted =
      hashdbChanges0.hashes_inserted + 1 ∧
    (hdInsert (HdSettings.mk 512 0 16 2) 1
        [HashDataEntry.mk [171] 0, HashDataEntry.mk [171] 0]
        (HdState.mk [] [] hashdbChanges0)).changes.hashes_not_inserted_duplicate_element =
      hashdbChanges0.hashes_not_inserted_duplicate_element + 1 :=
  hash_data_duplicate_suppression.2 (HdSettings.mk 512 0 16 2) 1
    (HdState.mk [] [] hashdbChanges0) (HashDataEntry.mk [171] 0)
    (by decide) (by decide)

/-- C7: intersect picks the smaller database (by map size) as driver, and
an element reaches the destination exactly when its key occurs in both
databases and it belongs to one of them; on {10,20,30} ∩ {20,30,40} the
result holds exactly the elements with keys 20 and 30. -/
theorem intersect_spec :
    (∀ A B : List HElem, A.length ≤ B.length →
      intersectDb A B = intersect_optimized A B []) ∧
    (∀ (A B : List HElem), keySorted A → keySorted B →
      ∀ t, t ∈ intersectDb A B ↔
        (t ∈ A ∧ 0 < findCount B t.key) ∨ (t ∈ B ∧ 0 < findCount A t.key)) ∧
    (intersectDb [HElem.mk 10 1, HElem.mk 20 2, HElem.mk 30 3]
        [HElem.mk 20 4, HElem.mk 30 5, HElem.mk 40 6] =
      [HElem.mk 20 2, HElem.mk 20 4, HElem.mk 30 3, HElem.mk 30 5]) := by
  refine ⟨?_, intersectDb_mem, ?_⟩
  · intro A B h
    simp [intersectDb, h]
  · decide

theorem intersect_spec_witness :
    (intersectDb [HElem.mk 10 1, HElem.mk 20 2] [HElem.mk 20 4, HElem.mk 30 5] =
      intersect_optimized [HElem.mk 10 1, HElem.mk 20 2]
        [HElem.mk 20 4, HElem.mk 30 5] []) ∧
    (HElem.mk 20 2 ∈ intersectDb [HElem.mk 10 1, HElem.mk 20 2]
        [HElem.mk 20 4, HElem.mk 30 5] ↔
      (HElem.mk 20 2 ∈ [HElem.mk 10 1, HElem.mk 20 2] ∧
        0 < findCount [HElem.mk 20 4, HElem.mk 30 5] (HElem.mk 20 2).key) ∨
      (HElem.mk 20 2 ∈ [HElem.mk 20 4, HElem.mk 30 5] ∧
        0 < findCount [HElem.mk 10 1, HElem.mk 20 2] (HElem.mk 20 2).key)) := by
  constructor
  · exact intersect_spec.1 [HElem.mk 10 1, HElem.mk 20 2]
      [HElem.mk 20 4, HElem.mk 30 5] (by decide)
  · exact intersect_spec.2.1 [HElem.mk 10 1, HElem.mk 20 2]
      [HElem.mk 20 4, HElem.mk 30 5]
      (by simp [keySorted, List.pairwise_cons])
      (by simp [keySorted, List.pairwise_cons]) (HElem.mk 20 2)

/-- C8: add_multiple merges its inputs by key, favoring the first database
on equal keys, then drains the remainder: the destination contains exactly
the elements of both inputs (exact duplicates suppressed) and enumerates
in ascending key order; on A = [10, 30, 50] and B = [20, 30, 40] the merge
interleaves, with A's key-30 element before B's. -/
theorem add_multiple_spec :
    (∀ (A B : List HElem) (t : HElem), t ∈ add_multiple A B ↔ t ∈ A ∨ t ∈ B) ∧
    (∀ A B : List HElem, keySorted (add_multiple A B)) ∧
    (add_multiple [HElem.mk 10 0, HElem.mk 30 0, HElem.mk 50 0]
        [HElem.mk 20 1, HElem.mk 30 1, HElem.mk 40 1] =
      [HElem.mk 10 0, HElem.mk 20 1, HElem.mk 30 0, HElem.mk 30 1,
        HElem.mk 40 1, HElem.mk 50 0]) := by
  refine ⟨?_, ?_, ?_⟩
  · intro A B t
    have h := addMultipleGo_mem (A.length + B.length) A B [] le_rfl t
    simpa [add_multiple] using h
  · intro A B
    exact addMultipleGo_sorted _ A B [] (by simp [keySorted])
  · decide

/-- C9: a block-hash record whose source_offset_pairs array has odd length
silently drops the trailing unpaired element: the leading pairs are all
inserted and no invalid-line report is produced for the leftover. -/
theorem odd_source_offset_pair_ignored :
    ∀ (doc : BlockHashDoc) (blockHash : String)
      (ps : List (String × Nat)) (j : JVal),
      doc.block_hash = some blockHash →
      doc.source_offset_pairs = some (pairsJson ps ++ [j]) →
      read_block_hash_data doc =
        (ps.map (fun p => (blockHash, p.1, p.2, doc.entropy.getD 0,
          doc.block_label.getD "")), []) := by
  intro doc blockHash ps j hbh hpairs
  simp only [read_block_hash_data, hbh, hpairs, readPairsLoop_odd]

theorem odd_source_offset_pair_ignored_witness :
    read_block_hash_data
        (BlockHashDoc.mk (some "aa") none none
          (some (pairsJson [("bb", 4096)] ++ [JVal.str "cc"]))) =
      ([("aa", "bb", 4096, 0, "")], []) :=
  odd_source_offset_pair_ignored
    (BlockHashDoc.mk (some "aa") none none
      (some (pairsJson [("bb", 4096)] ++ [JVal.str "cc"])))
    "aa" [("bb", 4096)] (JVal.str "cc") rfl rfl

/-- C10: an invalid-line report for a source record does not imply the
database is unchanged: once file_hash and filesize parse,
insert_source_data runs before the names field is validated, so a record
with a missing or malformed names array still inserts its source data,
together with every name pair preceding the malformed entry. -/
theorem source_data_inserted_before_names :
    (∀ (doc : SourceDoc) (fh : String) (fs : Nat),
      doc.file_hash = some fh → doc.filesize = some fs →
      ImportAction.insertSourceData fh fs (doc.file_type.getD "")
        (doc.nonprobative_count.getD 0) ∈ (read_source_data doc).1) ∧
    (∀ (doc : SourceDoc) (fh : String) (fs : Nat),
      doc.file_hash = some fh → doc.filesize = some fs → doc.names = none →
      read_source_data doc =
        ([ImportAction.insertSourceData fh fs (doc.file_type.getD "")
            (doc.nonprobative_count.getD 0)], ["source data names"])) ∧
    (∀ (fh : String) (fs : Nat) (ft : Option String) (npc : Option Nat)
        (good : List (String × String)) (bad : NameItem) (rest : List NameItem),
      bad.repository_name = none ∨ bad.filename = none →
      read_source_data (SourceDoc.mk (some fh) (some fs) ft npc
          (some (good.map (fun p => NameItem.mk (some p.1) (some p.2)) ++
            bad :: rest))) =
        (ImportAction.insertSourceData fh fs (ft.getD "") (npc.getD 0) ::
           good.map (fun p => ImportAction.insertSourceName fh p.1 p.2),
         if bad.repository_name = none then ["source data repository_name"]
         else ["source data filename"])) := by
  refine ⟨?_, ?_, ?_⟩
  · intro doc fh fs hfh hfs
    cases hnames : doc.names with
    | none => simp [read_source_data, hfh, hfs, hnames]
    | some items => simp [read_source_data, hfh, hfs, hnames]
  · intro doc fh fs hfh hfs hnames
    simp [read_source_data, hfh, hfs, hnames]
  · intro fh fs ft npc good bad rest hbad
    simp only [read_source_data, readNames_valid_head fh good bad rest hbad]

theorem source_data_inserted_before_names_witness :
    read_source_data (SourceDoc.mk (some "ab") (some 8) none none
        (some ([NameItem.mk (some "r") (some "f")] ++
          [NameItem.mk none (some "g")]))) =
      (ImportAction.insertSourceData "ab" 8 "" 0 ::
         [ImportAction.insertSourceName "ab" "r" "f"],
       ["source data repository_name"]) := by
  have h := source_data_inserted_before_names.2.2 "ab" 8 none none
    [("r", "f")] (NameItem.mk none (some "g")) [] (Or.inl rfl)
  simpa using h
